import Mathlib

/-!
Verification development for the `mcp-test-timebox` repository.

The development shallowly embeds the two cores of the repository:

* the log summarizer (`src/report/log-extractor.ts`): `getTailBytes`,
  `getTailLines`, `extractImportantLines`;
* the timeout-racing process supervisor
  (`src/executor/timebox-controller.ts`, `src/executor/process-executor.ts`),
  modelled as explicit state machines driven by event traces.

JavaScript strings are modelled as `List Char` (Lean `Char` is a Unicode
scalar value, so this covers every well-formed JS string, i.e. one without
lone surrogates).  `TextEncoder.encode` is modelled by `encodeStr` and
`TextDecoder('utf-8', fatal:false).decode` by `utf8Decode`, which is the
WHATWG UTF-8 decoding algorithm (invalid bytes are replaced by U+FFFD,
with the standard reconsume behaviour), written as the byte-at-a-time
state machine of the WHATWG encoding standard.  Decoded JS strings are
represented as `List Nat` of code points, since decoding arbitrary byte
input need not produce well-typed `Char`s syntactically.
-/

namespace Timebox

/-- UTF-8 byte length of a single code point (as produced by `TextEncoder`). -/
def byteLenC (c : Nat) : Nat :=
  if c < 0x80 then 1
  else if c < 0x800 then 2
  else if c < 0x10000 then 3
  else 4

/-- UTF-8 encoding of one code point. -/
def encodeChar (c : Nat) : List Nat :=
  if c < 0x80 then [c]
  else if c < 0x800 then [0xC0 + c / 64, 0x80 + c % 64]
  else if c < 0x10000 then
    [0xE0 + c / 4096, 0x80 + (c / 64) % 64, 0x80 + c % 64]
  else
    [0xF0 + c / 262144, 0x80 + (c / 4096) % 64, 0x80 + (c / 64) % 64, 0x80 + c % 64]

/-- Model of `new TextEncoder().encode(s)`: UTF-8 bytes of a JS string. -/
def encodeStr (s : List Char) : List Nat :=
  (s.map (fun c => encodeChar c.toNat)).flatten

/-- State of the WHATWG UTF-8 decoder: the code-point accumulator, the number
of continuation bytes still needed, and the admissible range for the next
continuation byte. -/
structure DecState where
  cp : Nat
  needed : Nat
  lo : Nat
  hi : Nat
deriving DecidableEq, Repr

/-- Initial decoder state (expecting a lead byte). -/
def decInit : DecState := ⟨0, 0, 0x80, 0xBF⟩

/-- Decoder transition for a lead byte `b`: either an immediate output
(ASCII, or U+FFFD for an invalid lead) or an intermediate state. -/
def decLead (b : Nat) : Sum Nat DecState :=
  if b ≤ 0x7F then Sum.inl b
  else if b ≤ 0xC1 then Sum.inl 0xFFFD
  else if b ≤ 0xDF then Sum.inr ⟨b - 0xC0, 1, 0x80, 0xBF⟩
  else if b ≤ 0xEF then
    Sum.inr ⟨b - 0xE0, 2, if b = 0xE0 then 0xA0 else 0x80, if b = 0xED then 0x9F else 0xBF⟩
  else if b ≤ 0xF4 then
    Sum.inr ⟨b - 0xF0, 3, if b = 0xF0 then 0x90 else 0x80, if b = 0xF4 then 0x8F else 0xBF⟩
  else Sum.inl 0xFFFD

/-- The WHATWG UTF-8 decoding loop.  In a mid-sequence state, an
out-of-range byte emits U+FFFD and is reconsumed as a lead byte (the
lead-byte handling is inlined at the reconsume point to keep the recursion
structural). -/
def decGo : DecState → List Nat → List Nat
  | s, [] => if s.needed = 0 then [] else [0xFFFD]
  | s, b :: rest =>
    if s.needed = 0 then
      match decLead b with
      | Sum.inl c => c :: decGo decInit rest
      | Sum.inr s' => decGo s' rest
    else if s.lo ≤ b ∧ b ≤ s.hi then
      if s.needed = 1 then (s.cp * 64 + (b - 0x80)) :: decGo decInit rest
      else decGo ⟨s.cp * 64 + (b - 0x80), s.needed - 1, 0x80, 0xBF⟩ rest
    else
      0xFFFD ::
        match decLead b with
        | Sum.inl c => c :: decGo decInit rest
        | Sum.inr s' => decGo s' rest

/-- Model of `new TextDecoder('utf-8', \x7bfatal: false\x7d).decode(bytes)`. -/
def utf8Decode (l : List Nat) : List Nat :=
  decGo decInit l

/-- UTF-8 byte length of a decoded JS string (list of code points). -/
def utf8LenN (l : List Nat) : Nat :=
  (l.map byteLenC).sum

/-- First index of code point `x` (model of `String.prototype.indexOf`,
`none` for `-1`). -/
def jsIndexOf : List Nat → Nat → Option Nat
  | [], _ => none
  | b :: rest, x =>
    if b = x then some 0 else (jsIndexOf rest x).map (· + 1)

/-- Model of `arr.slice(-k)` for a nonnegative `k` (note `slice(-0)` is
`slice(0)`, the whole array). -/
def jsSliceNeg {α : Type} (l : List α) (k : Nat) : List α :=
  if k = 0 then l else l.drop (l.length - k)

/-- Model of `getTailBytes` (src/report/log-extractor.ts, lines 98-119):
encode the log, return it unchanged if it fits in `maxBytes`, otherwise
decode the final `maxBytes` bytes and, if a newline occurs at a positive
index, drop everything through the first newline. -/
def getTailBytes (log : List Char) (maxBytes : Nat) : List Nat :=
  let encoded := encodeStr log
  if encoded.length ≤ maxBytes then log.map Char.toNat
  else
    let result := utf8Decode (jsSliceNeg encoded maxBytes)
    match jsIndexOf result 10 with
    | some i => if 0 < i then result.drop (i + 1) else result
    | none => result

example : getTailBytes ('a' :: 'b' :: 'c' :: []) 10 = [97, 98, 99] := by decide

example : getTailBytes ('a' :: 'b' :: 'c' :: []) 2 = [98, 99] := by decide

example : getTailBytes ('a' :: '\n' :: 'b' :: 'c' :: []) 3 = [10, 98, 99] := by decide

example : getTailBytes ('a' :: 'b' :: '\n' :: 'c' :: 'd' :: []) 4 = [99, 100] := by decide

example : utf8Decode (encodeStr ('あ' :: 'あ' :: [])) = [0x3042, 0x3042] := by decide

example : getTailBytes ('あ' :: 'あ' :: []) 5 = [0xFFFD, 0xFFFD, 0x3042] := by decide

example : utf8LenN (getTailBytes ('あ' :: 'あ' :: []) 5) = 9 := by decide

example : utf8Decode (encodeStr ('𝄞' :: [])) = [0x1D11E] := by decide

example : utf8Decode [0xED, 0xA0, 0x80] = [0xFFFD, 0xFFFD, 0xFFFD] := by decide

/-- Decoding step: an ASCII byte. -/
lemma utf8Decode_ascii (b : Nat) (rest : List Nat) (h : b ≤ 0x7F) :
    utf8Decode (b :: rest) = b :: utf8Decode rest := by
  simp [utf8Decode, decGo, decInit, decLead, h]

/-- Decoding step: a stray continuation byte at the start of the input is
replaced by U+FFFD and decoding continues at the next byte. -/
lemma utf8Decode_cont (b : Nat) (rest : List Nat) (h : 0x80 ≤ b) (h' : b ≤ 0xBF) :
    utf8Decode (b :: rest) = 0xFFFD :: utf8Decode rest := by
  have h1 : ¬ b ≤ 0x7F := by omega
  have h2 : b ≤ 0xC1 := by omega
  simp [utf8Decode, decGo, decInit, decLead, h1, h2]

/-- Decoding step: a well-formed two-byte sequence. -/
lemma utf8Decode_two (b b1 : Nat) (rest : List Nat)
    (hb : 0xC2 ≤ b) (hb' : b ≤ 0xDF) (h1 : 0x80 ≤ b1) (h1' : b1 ≤ 0xBF) :
    utf8Decode (b :: b1 :: rest) =
      ((b - 0xC0) * 64 + (b1 - 0x80)) :: utf8Decode rest := by
  have e1 : ¬ b ≤ 0x7F := by omega
  have e2 : ¬ b ≤ 0xC1 := by omega
  simp [utf8Decode, decGo, decInit, decLead, e1, e2, hb', h1, h1']

/-- Decoding step: a well-formed three-byte sequence. -/
lemma utf8Decode_three (b b1 b2 : Nat) (rest : List Nat)
    (hb : 0xE0 ≤ b) (hb' : b ≤ 0xEF)
    (h1 : (if b = 0xE0 then 0xA0 else 0x80) ≤ b1)
    (h1' : b1 ≤ if b = 0xED then 0x9F else 0xBF)
    (h2 : 0x80 ≤ b2) (h2' : b2 ≤ 0xBF) :
    utf8Decode (b :: b1 :: b2 :: rest) =
      ((b - 0xE0) * 4096 + (b1 - 0x80) * 64 + (b2 - 0x80)) :: utf8Decode rest := by
  have e1 : ¬ b ≤ 0x7F := by omega
  have e2 : ¬ b ≤ 0xC1 := by omega
  have e3 : ¬ b ≤ 0xDF := by omega
  simp only [utf8Decode, decGo, decInit, decLead, if_neg e1, if_neg e2, if_neg e3,
    if_pos hb']
  simp only [decGo, if_pos (And.intro h1 h1')]
  simp [decGo, h2, h2']
  ring

/-- Decoding step: a well-formed four-byte sequence. -/
lemma utf8Decode_four (b b1 b2 b3 : Nat) (rest : List Nat)
    (hb : 0xF0 ≤ b) (hb' : b ≤ 0xF4)
    (h1 : (if b = 0xF0 then 0x90 else 0x80) ≤ b1)
    (h1' : b1 ≤ if b = 0xF4 then 0x8F else 0xBF)
    (h2 : 0x80 ≤ b2) (h2' : b2 ≤ 0xBF) (h3 : 0x80 ≤ b3) (h3' : b3 ≤ 0xBF) :
    utf8Decode (b :: b1 :: b2 :: b3 :: rest) =
      ((b - 0xF0) * 262144 + (b1 - 0x80) * 4096 + (b2 - 0x80) * 64 + (b3 - 0x80)) ::
        utf8Decode rest := by
  have e1 : ¬ b ≤ 0x7F := by omega
  have e2 : ¬ b ≤ 0xC1 := by omega
  have e3 : ¬ b ≤ 0xDF := by omega
  have e4 : ¬ b ≤ 0xEF := by omega
  simp only [utf8Decode, decGo, decInit, decLead, if_neg e1, if_neg e2, if_neg e3,
    if_neg e4, if_pos hb']
  simp only [decGo, if_pos (And.intro h1 h1')]
  simp only [decGo, if_pos (And.intro h2 h2')]
  simp [decGo, h3, h3']
  ring

/-- A Lean `Char` carries a valid Unicode scalar value: below the surrogate
range or above it and below 0x110000. -/
lemma char_toNat_valid (c : Char) :
    c.toNat < 0xD800 ∨ (0xDFFF < c.toNat ∧ c.toNat < 0x110000) := by
  have h := c.valid
  simpa [UInt32.isValidChar, Nat.isValidChar, Char.toNat] using h

set_option maxRecDepth 4000 in
/-- Decoding inverts encoding on one character, in front of any remaining
byte stream. -/
lemma utf8Decode_encodeChar (c : Char) (bs : List Nat) :
    utf8Decode (encodeChar c.toNat ++ bs) = c.toNat :: utf8Decode bs := by
  have hv := char_toNat_valid c
  set n := c.toNat with hn
  by_cases h1 : n < 0x80
  · simp only [encodeChar, if_pos h1, List.cons_append, List.nil_append]
    rw [utf8Decode_ascii _ _ (by omega)]
  · by_cases h2 : n < 0x800
    · simp only [encodeChar, if_neg h1, if_pos h2, List.cons_append, List.nil_append]
      rw [utf8Decode_two _ _ _ (by omega) (by omega) (by omega) (by omega)]
      congr 1
      omega
    · by_cases h3 : n < 0x10000
      · simp only [encodeChar, if_neg h1, if_neg h2, if_pos h3, List.cons_append,
          List.nil_append]
        rw [utf8Decode_three _ _ _ _ (by omega) (by omega) ?lo ?hi (by omega) (by omega)]
        · congr 1
          omega
        case lo =>
          split_ifs with he
          · have : n / 4096 = 0 := by omega
            omega
          · omega
        case hi =>
          split_ifs with he
          · have : n / 4096 = 13 := by omega
            have hs : n < 0xD800 := by
              rcases hv with hv | hv <;> omega
            omega
          · omega
      · simp only [encodeChar, if_neg h1, if_neg h2, if_neg h3, List.cons_append,
          List.nil_append]
        have hup : n < 0x110000 := by rcases hv with hv | hv <;> omega
        rw [utf8Decode_four _ _ _ _ _ (by omega) (by omega) ?lo4 ?hi4
          (by omega) (by omega) (by omega) (by omega)]
        · congr 1
          omega
        case lo4 =>
          split_ifs with he
          · have : n / 262144 = 0 := by omega
            omega
          · omega
        case hi4 =>
          split_ifs with he
          · have : n / 262144 = 4 := by omega
            omega
          · omega

/-- Decoding inverts encoding on a whole string, in front of any remaining
byte stream. -/
lemma utf8Decode_encodeStr_append (s : List Char) (bs : List Nat) :
    utf8Decode (encodeStr s ++ bs) = s.map Char.toNat ++ utf8Decode bs := by
  induction s with
  | nil => simp [encodeStr]
  | cons c t ih =>
    have : encodeStr (c :: t) = encodeChar c.toNat ++ encodeStr t := by
      simp [encodeStr]
    rw [this, List.append_assoc, utf8Decode_encodeChar, ih]
    simp

/-- Decoding inverts encoding. -/
lemma utf8Decode_encodeStr (s : List Char) :
    utf8Decode (encodeStr s) = s.map Char.toNat := by
  have := utf8Decode_encodeStr_append s []
  simpa [utf8Decode, decGo, decInit] using this

/-- The byte length of an encoded code point is `byteLenC`. -/
lemma encodeChar_length (c : Nat) : (encodeChar c).length = byteLenC c := by
  simp only [encodeChar, byteLenC]
  split_ifs <;> simp

/-- Every byte of an encoded code point except the first is a continuation
byte. -/
lemma encodeChar_drop_cont (c n : Nat) (hn : 0 < n) :
    ∀ x ∈ (encodeChar c).drop n, 0x80 ≤ x ∧ x ≤ 0xBF := by
  intro x hx
  have h1 : x ∈ (encodeChar c).drop 1 := by
    have he : (encodeChar c).drop n = ((encodeChar c).drop 1).drop (n - 1) := by
      rw [List.drop_drop]
      congr 1
      omega
    exact List.mem_of_mem_drop (he ▸ hx)
  simp only [encodeChar] at h1
  split_ifs at h1
  · simp at h1
  · simp at h1
    omega
  · simp at h1
    rcases h1 with h1 | h1 <;> omega
  · simp at h1
    rcases h1 with h1 | h1 | h1 <;> omega

/-- The encoding of a code point takes at most four bytes. -/
lemma encodeChar_length_le (c : Nat) : (encodeChar c).length ≤ 4 := by
  simp only [encodeChar]
  split_ifs <;> simp

/-- Any suffix of an encoded string is a (length ≤ 3) run of continuation
bytes followed by the encoding of a suffix of the string. -/
lemma drop_encodeStr (s : List Char) (n : Nat) :
    ∃ (pre : List Nat) (t : List Char),
      (encodeStr s).drop n = pre ++ encodeStr t ∧ pre.length ≤ 3 ∧
        ∀ x ∈ pre, 0x80 ≤ x ∧ x ≤ 0xBF := by
  induction s generalizing n with
  | nil => exact ⟨[], [], by simp [encodeStr], by simp, by simp⟩
  | cons c tcs ih =>
    have hsplit : encodeStr (c :: tcs) = encodeChar c.toNat ++ encodeStr tcs := by
      simp [encodeStr]
    by_cases h0 : n = 0
    · exact ⟨[], c :: tcs, by simp [h0], by simp, by simp⟩
    · by_cases hlen : n ≤ (encodeChar c.toNat).length
      · refine ⟨(encodeChar c.toNat).drop n, tcs, ?_, ?_, ?_⟩
        · rw [hsplit, List.drop_append_of_le_length hlen]
        · have h4 := encodeChar_length_le c.toNat
          simp only [List.length_drop]
          omega
        · exact encodeChar_drop_cont c.toNat n (by omega)
      · obtain ⟨pre, t, he, hl, hc⟩ := ih (n - (encodeChar c.toNat).length)
        refine ⟨pre, t, ?_, hl, hc⟩
        rw [hsplit]
        have hn : n = (encodeChar c.toNat).length + (n - (encodeChar c.toNat).length) := by
          omega
        rw [hn, List.drop_append]
        exact he

lemma utf8LenN_append (a b : List Nat) :
    utf8LenN (a ++ b) = utf8LenN a + utf8LenN b := by
  simp [utf8LenN, List.sum_append]

lemma utf8LenN_replicate (k : Nat) :
    utf8LenN (List.replicate k 0xFFFD) = 3 * k := by
  simp [utf8LenN, List.map_replicate, List.sum_replicate, byteLenC]
  omega

/-- The UTF-8 byte length of the code points of a string is the length of its
encoding. -/
lemma utf8LenN_map_toNat (s : List Char) :
    utf8LenN (s.map Char.toNat) = (encodeStr s).length := by
  induction s with
  | nil => simp [utf8LenN, encodeStr]
  | cons c t ih =>
    have : encodeStr (c :: t) = encodeChar c.toNat ++ encodeStr t := by
      simp [encodeStr]
    simp only [List.map_cons, utf8LenN, List.sum_cons, this, List.length_append]
    rw [← encodeChar_length]
    have ih' := ih
    simp only [utf8LenN] at ih'
    omega

/-- Dropping elements can only shrink the byte length. -/
lemma utf8LenN_drop_le (l : List Nat) (m : Nat) :
    utf8LenN (l.drop m) ≤ utf8LenN l := by
  conv_rhs => rw [← List.take_append_drop m l]
  rw [utf8LenN_append]
  omega

/-- Decoding a run of continuation bytes followed by an encoded string
yields one U+FFFD per stray byte followed by the string. -/
lemma utf8Decode_contPrefix (pre bs : List Nat)
    (h : ∀ x ∈ pre, 0x80 ≤ x ∧ x ≤ 0xBF) :
    utf8Decode (pre ++ bs) = List.replicate pre.length 0xFFFD ++ utf8Decode bs := by
  induction pre with
  | nil => simp
  | cons b p ih =>
    simp only [List.cons_append]
    rw [utf8Decode_cont _ _ (h b (by simp)).1 (h b (by simp)).2,
      ih (fun x hx => h x (by simp [hx]))]
    simp [List.replicate_succ]

/-- Decoding any suffix of an encoded string inflates its byte length by at
most six bytes (at most three stray continuation bytes, each replaced by the
three-byte U+FFFD). -/
lemma utf8LenN_decode_drop (s : List Char) (n : Nat) :
    utf8LenN (utf8Decode ((encodeStr s).drop n)) ≤ ((encodeStr s).drop n).length + 6 := by
  obtain ⟨pre, t, he, hlen, hcont⟩ := drop_encodeStr s n
  rw [he, utf8Decode_contPrefix pre (encodeStr t) hcont, utf8LenN_append,
    utf8LenN_replicate, utf8Decode_encodeStr, utf8LenN_map_toNat]
  simp only [List.length_append]
  omega

/-- The trailing newline-trimming step of `getTailBytes` never increases the
byte length. -/
lemma utf8LenN_newlineTrim_le (r : List Nat) :
    utf8LenN
      (match jsIndexOf r 10 with
        | some i => if 0 < i then r.drop (i + 1) else r
        | none => r) ≤ utf8LenN r := by
  cases jsIndexOf r 10 with
  | none => exact le_rfl
  | some i =>
    simp only
    split_ifs with hi
    · exact utf8LenN_drop_le r (i + 1)
    · exact le_rfl

/-- C3, counterexample: the claim that for every log string and every
positive `maxBytes` the string returned by `getTailBytes` has UTF-8 byte
length at most `maxBytes` is false.  For the two-character log `"ああ"`
(six UTF-8 bytes) and `maxBytes = 5`, the decoder turns the two stray
continuation bytes of the split first character into two three-byte U+FFFD
replacement characters and no newline is present, so the result has UTF-8
byte length 9 > 5. -/
theorem C3_counterexample :
    0 < 5 ∧ ¬ utf8LenN (getTailBytes ('あ' :: 'あ' :: []) 5) ≤ 5 := by
  decide

/-- C3, amended: for every log string and every positive `maxBytes`, the
string returned by `getTailBytes` has UTF-8 byte length at most
`maxBytes + 6` (decoding the byte-sliced suffix can replace up to three
stray continuation bytes of a split multi-byte character by three-byte
U+FFFD replacement characters, inflating the length by at most six bytes);
and whenever the whole log's UTF-8 byte length is at most `maxBytes`, the
returned string equals the input log unchanged. -/
theorem C3_amended (log : List Char) (maxBytes : Nat) (h : 0 < maxBytes) :
    utf8LenN (getTailBytes log maxBytes) ≤ maxBytes + 6 ∧
      ((encodeStr log).length ≤ maxBytes →
        getTailBytes log maxBytes = log.map Char.toNat) := by
  constructor
  · by_cases hfit : (encodeStr log).length ≤ maxBytes
    · simp only [getTailBytes, if_pos hfit]
      rw [utf8LenN_map_toNat]
      omega
    · simp only [getTailBytes, if_neg hfit]
      have hmb : maxBytes ≠ 0 := by omega
      have htail : jsSliceNeg (encodeStr log) maxBytes =
          (encodeStr log).drop ((encodeStr log).length - maxBytes) := by
        simp [jsSliceNeg, hmb]
      have hlen : ((encodeStr log).drop ((encodeStr log).length - maxBytes)).length
          = maxBytes := by
        rw [List.length_drop]
        omega
      refine le_trans (utf8LenN_newlineTrim_le _) ?_
      rw [htail]
      refine le_trans (utf8LenN_decode_drop log _) ?_
      omega
  · intro hfit
    simp [getTailBytes, if_pos hfit]

/-- C3, witness for the amended claim at concrete inputs. -/
theorem C3_amended_witness :
    utf8LenN (getTailBytes ('あ' :: 'あ' :: []) 5) ≤ 5 + 6 ∧
      getTailBytes ('a' :: 'b' :: []) 4 = [97, 98] :=
  ⟨(C3_amended ('あ' :: 'あ' :: []) 5 (by decide)).1,
   (C3_amended ('a' :: 'b' :: []) 4 (by decide)).2 (by decide)⟩

/-- Model of `String.prototype.split` at separator `'\n'`. -/
def splitOnNl : List Char → List (List Char)
  | [] => [[]]
  | c :: cs =>
    if c = '\n' then [] :: splitOnNl cs
    else
      match splitOnNl cs with
      | [] => [[c]]
      | l :: ls => (c :: l) :: ls

/-- The `while`-loop of `getTailLines` that pops trailing empty lines. -/
def dropTrailingEmpty (lines : List (List Char)) : List (List Char) :=
  (lines.reverse.dropWhile (fun l => l.isEmpty)).reverse

/-- Model of `getTailLines` (src/report/log-extractor.ts, lines 128-142):
empty log or non-positive `lineCount` give `[]`; otherwise split on
newlines, pop trailing empty lines, and take the final `lineCount` lines. -/
def getTailLines (log : List Char) (lineCount : Int) : List (List Char) :=
  if log = [] ∨ lineCount ≤ 0 then []
  else jsSliceNeg (dropTrailingEmpty (splitOnNl log)) lineCount.toNat

example :
    getTailLines ('a' :: '\n' :: 'b' :: '\n' :: 'c' :: []) 2 = [['b'], ['c']] := by
  decide

example :
    getTailLines ('a' :: '\n' :: 'b' :: '\n' :: '\n' :: []) 5 = [['a'], ['b']] := by
  decide

example : getTailLines ('a' :: 'b' :: []) (-1) = [] := by decide

/-- C7, counterexample: the claim that `getTailLines` returns the literal
final `n` complete, non-empty lines of the log (in particular only
non-empty entries) is false.  For the log `"a\n\nb"` and `n = 2` the code
returns `["", "b"]` — only trailing empty lines are removed, interior empty
lines are kept — whereas the final two non-empty lines are `["a", "b"]`. -/
theorem C7_counterexample :
    [] ∈ getTailLines ('a' :: '\n' :: '\n' :: 'b' :: []) 2 ∧
      getTailLines ('a' :: '\n' :: '\n' :: 'b' :: []) 2 ≠ ['a'] :: ['b'] :: [] := by
  decide

/-- C7, amended: for every log string and every `n`, `getTailLines` returns
at most `n` entries, and the returned entries are exactly the final
`min n k` lines of the log after removing trailing empty lines (`k` the
number of remaining lines); interior empty lines may appear among them. -/
theorem C7_amended (log : List Char) (n : Int) :
    (getTailLines log n).length ≤ n.toNat ∧
      (getTailLines log n).length =
        min n.toNat (dropTrailingEmpty (splitOnNl log)).length ∧
      getTailLines log n <:+ dropTrailingEmpty (splitOnNl log) := by
  by_cases hg : log = [] ∨ n ≤ 0
  · have hr : getTailLines log n = [] := by
      simp only [getTailLines, if_pos hg]
    rcases hg with hg | hg
    · subst hg
      refine ⟨by simp [hr], ?_, by simp [hr]⟩
      simp [hr, splitOnNl, dropTrailingEmpty]
    · have hz : n.toNat = 0 := by omega
      refine ⟨by simp [hr, hz], ?_, by simp [hr]⟩
      simp [hr, hz]
  · have hr : getTailLines log n =
        jsSliceNeg (dropTrailingEmpty (splitOnNl log)) n.toNat := by
      simp only [getTailLines, if_neg hg]
    have hn : 0 < n := by
      push_neg at hg
      exact hg.2
    have hk : n.toNat ≠ 0 := by omega
    rw [hr, jsSliceNeg, if_neg hk]
    refine ⟨?_, ?_, List.drop_suffix _ _⟩
    · rw [List.length_drop]
      omega
    · rw [List.length_drop]
      omega

/-- A compiled regular expression as used by `extractImportantLines`:
`pattern.test(line)` is a pure boolean predicate (none of the
`IMPORTANT_PATTERNS` carry the stateful `g`/`y` flags) and
`pattern.source` its source text.  The claims quantify over arbitrary
ordered pattern lists, so the test function is kept abstract. -/
structure JsPattern where
  test : List Char → Bool
  source : List Char

/-- An extracted block (`ExtractedBlock`, src/report/log-extractor.ts,
lines 59-72). -/
structure ExtractedBlock where
  lineNumber : Nat
  matchedLine : List Char
  pattern : List Char
  contextLines : List (List Char)
  contextStartLine : Nat
  contextEndLine : Nat
deriving DecidableEq, Repr

/-- The inner `for (const pattern of patterns)` loop of
`extractImportantLines` for one line: on a matching pattern the loop
`continue`s when the line index is already in `matchedLineNumbers` and
otherwise takes that pattern. -/
def findPattern (matched : List Nat) (i : Nat) (line : List Char) :
    List JsPattern → Option JsPattern
  | [] => none
  | p :: ps =>
    if p.test line then
      if i ∈ matched then findPattern matched i line ps else some p
    else findPattern matched i line ps

/-- The block pushed by `extractImportantLines` for a match of pattern `p`
on line `i`: context clipped to `[max(0, i-ctx), min(length-1, i+ctx)]`
and `lines.slice(contextStart, contextEnd + 1)` as the context lines. -/
def mkBlock (lines : List (List Char)) (ctx i : Nat) (line : List Char)
    (p : JsPattern) : ExtractedBlock :=
  { lineNumber := i
    matchedLine := line
    pattern := p.source
    contextLines :=
      (lines.drop (i - ctx)).take (min (lines.length - 1) (i + ctx) + 1 - (i - ctx))
    contextStartLine := i - ctx
    contextEndLine := min (lines.length - 1) (i + ctx) }

/-- The outer `for (let i = 0; i < lines.length; i++)` loop of
`extractImportantLines`, threading the `matchedLineNumbers` set and the
result list; the remaining lines are carried explicitly (`rem` is
`lines.drop i`) to keep the recursion structural. -/
def extractGo (lines : List (List Char)) (patterns : List JsPattern) (ctx : Nat) :
    List (List Char) → Nat → List Nat → List ExtractedBlock
  | [], _, _ => []
  | line :: rest, i, matched =>
    match findPattern matched i line patterns with
    | some p =>
      mkBlock lines ctx i line p ::
        extractGo lines patterns ctx rest (i + 1) (i :: matched)
    | none => extractGo lines patterns ctx rest (i + 1) matched

/-- The lines scanned by `extractImportantLines` over a window: the early
return on an empty window means no line is scanned; otherwise the window is
split on newlines. -/
def windowLines (window : List Char) : List (List Char) :=
  if window = [] then [] else splitOnNl window

/-- Model of `extractImportantLines` (src/report/log-extractor.ts, lines
154-216) applied to a window (the `targetLog` string; the claims quantify
over the window, the context line count and the ordered pattern list). -/
def extractImportantLines (window : List Char) (ctx : Nat)
    (patterns : List JsPattern) : List ExtractedBlock :=
  extractGo (windowLines window) patterns ctx (windowLines window) 0 []

/-- Whether `needle` occurs at the start of `hay`. -/
def startsWithSeq : List Char → List Char → Bool
  | [], _ => true
  | _ :: _, [] => false
  | a :: as, b :: bs => a == b && startsWithSeq as bs

/-- Whether `needle` occurs as a contiguous run inside `hay`. -/
def containsSeq (needle : List Char) : List Char → Bool
  | [] => startsWithSeq needle []
  | b :: rest => startsWithSeq needle (b :: rest) || containsSeq needle rest

/-- A pattern testing for a literal `ERROR` substring (stands in for the
regular expression source `ERROR` in concrete examples). -/
def errorPattern : JsPattern :=
  { test := containsSeq ('E' :: 'R' :: 'R' :: 'O' :: 'R' :: [])
    source := 'E' :: 'R' :: 'R' :: 'O' :: 'R' :: [] }

example :
    (extractImportantLines
        ('a' :: '\n' :: 'E' :: 'R' :: 'R' :: 'O' :: 'R' :: '\n' :: 'b' :: []) 1
        (errorPattern :: [])).map (fun b => b.lineNumber) = [1] := by
  decide

example :
    (extractImportantLines
        ('a' :: '\n' :: 'E' :: 'R' :: 'R' :: 'O' :: 'R' :: '\n' :: 'b' :: []) 1
        (errorPattern :: [])).map (fun b => b.contextLines) =
      [[['a'], ['E', 'R', 'R', 'O', 'R'], ['b']]] := by
  decide

/-- When the line index is not yet recorded, the inner pattern loop returns
the first matching pattern of the ordered list. -/
lemma findPattern_not_mem (matched : List Nat) (i : Nat) (line : List Char)
    (ps : List JsPattern) (h : i ∉ matched) :
    findPattern matched i line ps = ps.find? (fun p => p.test line) := by
  induction ps with
  | nil => rfl
  | cons p ps ih =>
    simp only [findPattern, List.find?_cons]
    cases hp : p.test line with
    | true => simp [h]
    | false => simpa using ih

/-- Invariant of the scanning loop: every produced block records a line of
`lines` at an index not yet visited, carries the first matching pattern of
the ordered list, and its context fields are computed from the clipped
context range. -/
lemma extractGo_mem (lines : List (List Char)) (patterns : List JsPattern)
    (ctx : Nat) :
    ∀ (rem : List (List Char)) (i : Nat) (matched : List Nat),
      lines.drop i = rem → (∀ m ∈ matched, m < i) →
      ∀ b ∈ extractGo lines patterns ctx rem i matched,
        i ≤ b.lineNumber ∧ b.lineNumber < lines.length ∧
          lines[b.lineNumber]? = some b.matchedLine ∧
          (∃ p, patterns.find? (fun q => q.test b.matchedLine) = some p ∧
            b.pattern = p.source) ∧
          b.contextStartLine = b.lineNumber - ctx ∧
          b.contextEndLine = min (lines.length - 1) (b.lineNumber + ctx) ∧
          b.contextLines = (lines.drop b.contextStartLine).take
            (b.contextEndLine + 1 - b.contextStartLine) := by
  intro rem
  induction rem with
  | nil =>
    intro i matched _ _ b hb
    simp [extractGo] at hb
  | cons line rest ih =>
    intro i matched hrem hm b hb
    have hlen : lines.length = i + (rest.length + 1) := by
      have h := congrArg List.length hrem
      simp only [List.length_drop, List.length_cons] at h
      omega
    have hi : i < lines.length := by omega
    have hline : lines[i]? = some line := by
      have h0 : (lines.drop i)[0]? = some line := by rw [hrem]; simp
      rw [List.getElem?_drop] at h0
      simpa using h0
    have hrest : lines.drop (i + 1) = rest := by
      have h1 : lines.drop (i + 1) = (lines.drop i).drop 1 := by
        rw [List.drop_drop]
      rw [h1, hrem]
      rfl
    have hnm : i ∉ matched := fun hmem => absurd (hm i hmem) (lt_irrefl i)
    simp only [extractGo, findPattern_not_mem matched i line patterns hnm] at hb
    cases hfm : patterns.find? (fun p => p.test line) with
    | some p =>
      rw [hfm] at hb
      rcases List.mem_cons.mp hb with hb | hb
      · subst hb
        exact ⟨le_refl i, hi, hline, ⟨p, hfm, rfl⟩, rfl, rfl, rfl⟩
      · have hm' : ∀ m ∈ i :: matched, m < i + 1 := by
          intro m hmem
          rcases List.mem_cons.mp hmem with hmem | hmem
          · omega
          · exact Nat.lt_succ_of_lt (hm m hmem)
        obtain ⟨h1, h2⟩ := ih (i + 1) (i :: matched) hrest hm' b hb
        exact ⟨by omega, h2⟩
    | none =>
      rw [hfm] at hb
      have hm' : ∀ m ∈ matched, m < i + 1 := fun m hmem =>
        Nat.lt_succ_of_lt (hm m hmem)
      obtain ⟨h1, h2⟩ := ih (i + 1) matched hrest hm' b hb
      exact ⟨by omega, h2⟩

/-- Counting invariant of the scanning loop: each not-yet-visited line index
contributes exactly one block when some pattern matches it and none
otherwise. -/
lemma extractGo_countP (lines : List (List Char)) (patterns : List JsPattern)
    (ctx : Nat) :
    ∀ (rem : List (List Char)) (i : Nat) (matched : List Nat),
      lines.drop i = rem → (∀ m ∈ matched, m < i) →
      ∀ j, i ≤ j → j < lines.length →
        (extractGo lines patterns ctx rem i matched).countP
            (fun b => b.lineNumber == j) =
          if (patterns.find? fun q => q.test (lines.getD j [])).isSome
          then 1 else 0 := by
  intro rem
  induction rem with
  | nil =>
    intro i matched hrem _ j hij hj
    have h := congrArg List.length hrem
    simp only [List.length_drop, List.length_nil] at h
    omega
  | cons line rest ih =>
    intro i matched hrem hm j hij hj
    have hlen : lines.length = i + (rest.length + 1) := by
      have h := congrArg List.length hrem
      simp only [List.length_drop, List.length_cons] at h
      omega
    have hi : i < lines.length := by omega
    have hline : lines[i]? = some line := by
      have h0 : (lines.drop i)[0]? = some line := by rw [hrem]; simp
      rw [List.getElem?_drop] at h0
      simpa using h0
    have hlineD : lines.getD i [] = line := by
      rw [List.getD_eq_getElem?_getD, hline]
      rfl
    have hrest : lines.drop (i + 1) = rest := by
      have h1 : lines.drop (i + 1) = (lines.drop i).drop 1 := by
        rw [List.drop_drop]
      rw [h1, hrem]
      rfl
    have hnm : i ∉ matched := fun hmem => absurd (hm i hmem) (lt_irrefl i)
    have hm1 : ∀ m ∈ i :: matched, m < i + 1 := by
      intro m hmem
      rcases List.mem_cons.mp hmem with hmem | hmem
      · omega
      · exact Nat.lt_succ_of_lt (hm m hmem)
    have hm2 : ∀ m ∈ matched, m < i + 1 := fun m hmem =>
      Nat.lt_succ_of_lt (hm m hmem)
    simp only [extractGo, findPattern_not_mem matched i line patterns hnm]
    rcases Nat.eq_or_lt_of_le hij with hji | hji
    · subst hji
      rw [hlineD]
      cases hfm : patterns.find? (fun p => p.test line) with
      | some p =>
        simp only [List.countP_cons]
        have hz : (extractGo lines patterns ctx rest (i + 1)
            (i :: matched)).countP (fun b => b.lineNumber == i) = 0 := by
          rw [List.countP_eq_zero]
          intro b hb
          obtain ⟨h1, _⟩ := extractGo_mem lines patterns ctx rest (i + 1)
            (i :: matched) hrest hm1 b hb
          simp only [beq_iff_eq]
          omega
        rw [hz]
        simp [mkBlock]
      | none =>
        show (extractGo lines patterns ctx rest (i + 1) matched).countP
            (fun b => b.lineNumber == i) = 0
        rw [List.countP_eq_zero]
        intro b hb
        obtain ⟨h1, _⟩ := extractGo_mem lines patterns ctx rest (i + 1)
          matched hrest hm2 b hb
        simp only [beq_iff_eq]
        omega
    · cases hfm : patterns.find? (fun p => p.test line) with
      | some p =>
        simp only [List.countP_cons]
        rw [ih (i + 1) (i :: matched) hrest hm1 j hji hj]
        simp only [mkBlock, beq_iff_eq]
        have : ¬ i = j := by omega
        simp [this]
      | none =>
        exact ih (i + 1) matched hrest hm2 j hji hj

/-- Ordering invariant of the scanning loop: blocks are produced in strictly
increasing line order. -/
lemma extractGo_pairwise (lines : List (List Char)) (patterns : List JsPattern)
    (ctx : Nat) :
    ∀ (rem : List (List Char)) (i : Nat) (matched : List Nat),
      lines.drop i = rem → (∀ m ∈ matched, m < i) →
      (extractGo lines patterns ctx rem i matched).Pairwise
        (fun a b => a.lineNumber < b.lineNumber) := by
  intro rem
  induction rem with
  | nil =>
    intro i matched _ _
    simp [extractGo]
  | cons line rest ih =>
    intro i matched hrem hm
    have hrest : lines.drop (i + 1) = rest := by
      have h1 : lines.drop (i + 1) = (lines.drop i).drop 1 := by
        rw [List.drop_drop]
      rw [h1, hrem]
      rfl
    have hnm : i ∉ matched := fun hmem => absurd (hm i hmem) (lt_irrefl i)
    have hm1 : ∀ m ∈ i :: matched, m < i + 1 := by
      intro m hmem
      rcases List.mem_cons.mp hmem with hmem | hmem
      · omega
      · exact Nat.lt_succ_of_lt (hm m hmem)
    have hm2 : ∀ m ∈ matched, m < i + 1 := fun m hmem =>
      Nat.lt_succ_of_lt (hm m hmem)
    simp only [extractGo, findPattern_not_mem matched i line patterns hnm]
    cases hfm : patterns.find? (fun p => p.test line) with
    | some p =>
      rw [List.pairwise_cons]
      constructor
      · intro b hb
        obtain ⟨h1, _⟩ := extractGo_mem lines patterns ctx rest (i + 1)
          (i :: matched) hrest hm1 b hb
        simp only [mkBlock]
        omega
      · exact ih (i + 1) (i :: matched) hrest hm1
    | none =>
      exact ih (i + 1) matched hrest hm2

/-- C8: for every window, ordered pattern list, and context line count,
`extractImportantLines` emits at most one block per line, recording the
first pattern of the ordered list matching that line; a line of the window
is the matched line of exactly one block precisely when some configured
pattern matches it (count one when the first-match search succeeds, zero
otherwise); and every block's context line range lies within the window's
line range, its context lines all being lines of the window. -/
theorem C8 (window : List Char) (ctx : Nat) (patterns : List JsPattern) :
    (∀ b ∈ extractImportantLines window ctx patterns,
        (windowLines window)[b.lineNumber]? = some b.matchedLine ∧
          ∃ p, patterns.find? (fun q => q.test b.matchedLine) = some p ∧
            b.pattern = p.source) ∧
      (∀ j, j < (windowLines window).length →
        (extractImportantLines window ctx patterns).countP
            (fun b => b.lineNumber == j) =
          if (patterns.find? fun q =>
              q.test ((windowLines window).getD j [])).isSome
          then 1 else 0) ∧
      (∀ b ∈ extractImportantLines window ctx patterns,
        b.contextStartLine ≤ b.contextEndLine ∧
          b.contextEndLine < (windowLines window).length ∧
          ∀ l ∈ b.contextLines, l ∈ windowLines window) := by
  refine ⟨?_, ?_, ?_⟩
  · intro b hb
    obtain ⟨_, _, h3, h4, _⟩ := extractGo_mem (windowLines window) patterns ctx
      (windowLines window) 0 [] (List.drop_zero _) (by simp) b hb
    exact ⟨h3, h4⟩
  · intro j hj
    exact extractGo_countP (windowLines window) patterns ctx
      (windowLines window) 0 [] (List.drop_zero _) (by simp) j (Nat.zero_le j) hj
  · intro b hb
    obtain ⟨_, h2, _, _, h5, h6, h7⟩ := extractGo_mem (windowLines window)
      patterns ctx (windowLines window) 0 [] (List.drop_zero _) (by simp) b hb
    refine ⟨by omega, by omega, ?_⟩
    intro l hl
    rw [h7] at hl
    exact List.mem_of_mem_drop (List.mem_of_mem_take hl)

/-- C8, witness: on the window `"x\nERROR"` with the `ERROR` pattern and one
context line, line 1 matches and is the matched line of exactly one block. -/
theorem C8_witness :
    (extractImportantLines ('x' :: '\n' :: 'E' :: 'R' :: 'R' :: 'O' :: 'R' :: [])
        1 (errorPattern :: [])).countP (fun b => b.lineNumber == 1) = 1 := by
  have h := (C8 ('x' :: '\n' :: 'E' :: 'R' :: 'R' :: 'O' :: 'R' :: []) 1
    (errorPattern :: [])).2.1 1 (by decide)
  rw [h]
  decide

/-- C10: every block returned by `extractImportantLines` satisfies the
structural invariant: `contextStartLine ≤ lineNumber ≤ contextEndLine`, the
context has exactly `contextEndLine - contextStartLine + 1` entries, the
entry at position `lineNumber - contextStartLine` is the matched line, and
the blocks are ordered by strictly increasing `lineNumber`. -/
theorem C10 (window : List Char) (ctx : Nat) (patterns : List JsPattern) :
    (∀ b ∈ extractImportantLines window ctx patterns,
        b.contextStartLine ≤ b.lineNumber ∧
          b.lineNumber ≤ b.contextEndLine ∧
          b.contextLines.length = b.contextEndLine - b.contextStartLine + 1 ∧
          b.contextLines[b.lineNumber - b.contextStartLine]? =
            some b.matchedLine) ∧
      (extractImportantLines window ctx patterns).Pairwise
        (fun a b => a.lineNumber < b.lineNumber) := by
  constructor
  · intro b hb
    obtain ⟨_, h2, h3, _, h5, h6, h7⟩ := extractGo_mem (windowLines window)
      patterns ctx (windowLines window) 0 [] (List.drop_zero _) (by simp) b hb
    refine ⟨by omega, by omega, ?_, ?_⟩
    · rw [h7, List.length_take, List.length_drop]
      omega
    · rw [h7, List.getElem?_take, if_pos (by omega), List.getElem?_drop]
      rw [show b.contextStartLine + (b.lineNumber - b.contextStartLine) =
        b.lineNumber from by omega]
      exact h3
  · exact extractGo_pairwise (windowLines window) patterns ctx
      (windowLines window) 0 [] (List.drop_zero _) (by simp)

/-- The block produced on the window `"x\nERROR"` by the `ERROR` pattern
with one context line (used as concrete input for witnesses). -/
def sampleBlock : ExtractedBlock :=
  { lineNumber := 1
    matchedLine := 'E' :: 'R' :: 'R' :: 'O' :: 'R' :: []
    pattern := 'E' :: 'R' :: 'R' :: 'O' :: 'R' :: []
    contextLines := ['x'] :: ('E' :: 'R' :: 'R' :: 'O' :: 'R' :: []) :: []
    contextStartLine := 0
    contextEndLine := 1 }

/-- C10, witness: the invariant instantiated at the concrete block returned
on the window `"x\nERROR"`. -/
theorem C10_witness :
    sampleBlock.contextStartLine ≤ sampleBlock.lineNumber ∧
      sampleBlock.lineNumber ≤ sampleBlock.contextEndLine ∧
      sampleBlock.contextLines.length =
        sampleBlock.contextEndLine - sampleBlock.contextStartLine + 1 ∧
      sampleBlock.contextLines[sampleBlock.lineNumber -
        sampleBlock.contextStartLine]? = some sampleBlock.matchedLine :=
  (C10 ('x' :: '\n' :: 'E' :: 'R' :: 'R' :: 'O' :: 'R' :: []) 1
    (errorPattern :: [])).1 sampleBlock (by decide)

/-- The two timeout kinds (`TimeoutType`,
src/executor/timebox-controller.ts). -/
inductive TimeoutType
  | hard
  | no_output
deriving DecidableEq, Repr

/-- State of a `TimeboxController` instance
(src/executor/timebox-controller.ts, lines 48-66).  Pending `setTimeout`
handles are modelled by fresh numeric tokens drawn from `nextTimerId`; a
field holding `none` means no pending timer (a cancelled or replaced timer
can never run, which is modelled by its token no longer being stored).
`hasNoOutputCallback` models `noOutputCallback !== null`.  Two history
fields record the externally observable behaviour: `fires` lists the
callback invocations in order, and `everStopped` records whether a callback
has fired or `clear()` has been called (the `Fired`/`Cleared` states of the
spec's state machine). -/
structure TbState where
  hardTimeoutId : Option Nat
  noOutputTimeoutId : Option Nat
  noOutputTimeoutMs : Option Nat
  hasNoOutputCallback : Bool
  timedOut : Bool
  timeoutType : Option TimeoutType
  nextTimerId : Nat
  fires : List TimeoutType
  everStopped : Bool
deriving DecidableEq, Repr

/-- Freshly constructed controller (`new TimeboxController()`). -/
def tbInit : TbState :=
  { hardTimeoutId := none
    noOutputTimeoutId := none
    noOutputTimeoutMs := none
    hasNoOutputCallback := false
    timedOut := false
    timeoutType := none
    nextTimerId := 0
    fires := []
    everStopped := false }

/-- Method `clear()` (lines 127-141): cancel both pending timers; the
configured interval and callback are deliberately not reset. -/
def tbClearCall (s : TbState) : TbState :=
  { s with hardTimeoutId := none, noOutputTimeoutId := none, everStopped := true }

/-- Method `setHardTimeout(ms, cb)` (lines 76-89): cancel any pending hard
timer and arm a fresh one (the duration only schedules the expiration and
does not otherwise enter the state). -/
def tbSetHard (s : TbState) (_ms : Nat) : TbState :=
  { s with hardTimeoutId := some s.nextTimerId, nextTimerId := s.nextTimerId + 1 }

/-- Private method `resetNoOutputTimer()` (lines 160-176): cancel any
pending no-output timer, then arm a fresh one when both the interval and
the callback are configured. -/
def tbResetNoOutput (s : TbState) : TbState :=
  if s.noOutputTimeoutMs.isSome ∧ s.hasNoOutputCallback then
    { s with noOutputTimeoutId := some s.nextTimerId, nextTimerId := s.nextTimerId + 1 }
  else { s with noOutputTimeoutId := none }

/-- Method `setNoOutputTimeout(ms, cb)` (lines 100-107): store the interval
and callback, then start the timer. -/
def tbSetNoOutput (s : TbState) (ms : Nat) : TbState :=
  tbResetNoOutput { s with noOutputTimeoutMs := some ms, hasNoOutputCallback := true }

/-- Method `notifyOutput()` (lines 115-120): reset the no-output timer when
one is configured. -/
def tbNotifyOutput (s : TbState) : TbState :=
  if s.noOutputTimeoutMs.isSome ∧ s.hasNoOutputCallback then tbResetNoOutput s
  else s

/-- Body of the hard timer's `setTimeout` closure (lines 83-88): record the
timeout, clear both timers, then invoke the callback (recorded in
`fires`). -/
def tbFireHardBody (s : TbState) : TbState :=
  let s1 := tbClearCall { s with timedOut := true, timeoutType := some TimeoutType.hard }
  { s1 with fires := s1.fires ++ [TimeoutType.hard] }

/-- Body of the no-output timer's `setTimeout` closure (lines 169-174). -/
def tbFireNoOutputBody (s : TbState) : TbState :=
  let s1 := tbClearCall { s with timedOut := true, timeoutType := some TimeoutType.no_output }
  { s1 with fires := s1.fires ++ [TimeoutType.no_output] }

/-- Events driving a controller instance: the four public method calls plus
the two timer expirations.  A timer expiration carries the token of the
`setTimeout` closure that runs; it has an effect only when that token is
still the pending one (a cancelled timer never runs).  Durations are
carried for faithfulness but do not restrict the event order: the model
quantifies over all interleavings. -/
inductive TbEvent
  | setHard (ms : Nat)
  | setNoOutput (ms : Nat)
  | notifyOutput
  | clear
  | fireHard (id : Nat)
  | fireNoOutput (id : Nat)
deriving DecidableEq, Repr

/-- One step of the controller state machine. -/
def tbStep (s : TbState) (e : TbEvent) : TbState :=
  match e with
  | TbEvent.setHard ms => tbSetHard s ms
  | TbEvent.setNoOutput ms => tbSetNoOutput s ms
  | TbEvent.notifyOutput => tbNotifyOutput s
  | TbEvent.clear => tbClearCall s
  | TbEvent.fireHard id =>
    if s.hardTimeoutId = some id then tbFireHardBody s else s
  | TbEvent.fireNoOutput id =>
    if s.noOutputTimeoutId = some id then tbFireNoOutputBody s else s

/-- A controller's lifetime: a trace of events from the fresh state. -/
def tbRun (events : List TbEvent) : TbState :=
  events.foldl tbStep tbInit

example : (tbRun [TbEvent.setHard 500, TbEvent.fireHard 0]).fires
    = [TimeoutType.hard] := by decide

example :
    (tbRun [TbEvent.setHard 1000, TbEvent.setNoOutput 500, TbEvent.fireNoOutput 1,
      TbEvent.fireHard 0]).fires = [TimeoutType.no_output] := by decide

/-- C4, counterexample: the claim that at most one of the two armed
callbacks fires over a controller's lifetime and that no sequence of
`notifyOutput()` calls after firing can cause a further fire is false.
After `setNoOutputTimeout` fires once, a single `notifyOutput()` re-arms
the no-output timer (the interval and callback are retained by `clear()`),
and the re-armed timer fires a second time. -/
theorem C4_counterexample :
    ¬ (tbRun [TbEvent.setNoOutput 100, TbEvent.fireNoOutput 0,
        TbEvent.notifyOutput, TbEvent.fireNoOutput 1]).fires.length ≤ 1 ∧
      (tbRun [TbEvent.setNoOutput 100, TbEvent.fireNoOutput 0,
        TbEvent.notifyOutput]).everStopped = true ∧
      (tbRun [TbEvent.setNoOutput 100, TbEvent.fireNoOutput 0,
        TbEvent.notifyOutput]).noOutputTimeoutId.isSome = true := by
  decide

/-- Whether an event can re-arm a timer. -/
def rearms : TbEvent → Bool
  | TbEvent.setHard _ => true
  | TbEvent.setNoOutput _ => true
  | TbEvent.notifyOutput => true
  | _ => false

/-- Checks along a trace that no re-arming call (`setHardTimeout`,
`setNoOutputTimeout`, `notifyOutput`) happens after the controller has
fired or been cleared. -/
def noRearmFrom (s : TbState) : List TbEvent → Bool
  | [] => true
  | e :: es => (!(rearms e && s.everStopped)) && noRearmFrom (tbStep s e) es

/-- Invariant used for the amended C4: before stopping no callback has
fired; after stopping both timers stay disarmed and at most one callback
has fired. -/
def tbInv (s : TbState) : Prop :=
  (s.everStopped = false → s.fires = []) ∧
    (s.everStopped = true →
      s.hardTimeoutId = none ∧ s.noOutputTimeoutId = none ∧ s.fires.length ≤ 1)

lemma tbInv_step (s : TbState) (e : TbEvent)
    (hre : ¬ (rearms e = true ∧ s.everStopped = true)) (h : tbInv s) :
    tbInv (tbStep s e) := by
  obtain ⟨h1, h2⟩ := h
  cases e with
  | setHard ms =>
    have hs : s.everStopped = false := by
      by_contra hc
      exact hre ⟨rfl, by revert hc; cases s.everStopped <;> simp⟩
    constructor
    · intro _
      simpa [tbStep, tbSetHard, hs] using h1 hs
    · intro hc
      simp [tbStep, tbSetHard, hs] at hc
  | setNoOutput ms =>
    have hs : s.everStopped = false := by
      by_contra hc
      exact hre ⟨rfl, by revert hc; cases s.everStopped <;> simp⟩
    constructor
    · intro _
      simp only [tbStep, tbSetNoOutput, tbResetNoOutput]
      split_ifs <;> simpa [hs] using h1 hs
    · intro hc
      simp only [tbStep, tbSetNoOutput, tbResetNoOutput] at hc
      split_ifs at hc <;> simp [hs] at hc
  | notifyOutput =>
    have hs : s.everStopped = false := by
      by_contra hc
      exact hre ⟨rfl, by revert hc; cases s.everStopped <;> simp⟩
    constructor
    · intro _
      simp only [tbStep, tbNotifyOutput, tbResetNoOutput]
      split_ifs <;> simpa [hs] using h1 hs
    · intro hc
      simp only [tbStep, tbNotifyOutput, tbResetNoOutput] at hc
      split_ifs at hc <;> simp [hs] at hc
  | clear =>
    refine ⟨?_, ?_⟩
    · intro hc
      simp [tbStep, tbClearCall] at hc
    · intro _
      simp only [tbStep, tbClearCall]
      refine ⟨by simp, by simp, ?_⟩
      cases hs : s.everStopped with
      | false => simp [h1 hs]
      | true => exact (h2 hs).2.2
  | fireHard id =>
    by_cases hid : s.hardTimeoutId = some id
    · have hs : s.everStopped = false := by
        by_contra hc
        have hc' : s.everStopped = true := by revert hc; cases s.everStopped <;> simp
        exact absurd hid (by simp [(h2 hc').1])
      refine ⟨?_, ?_⟩
      · intro hc
        simp [tbStep, hid, tbFireHardBody, tbClearCall] at hc
      · intro _
        simp [tbStep, hid, tbFireHardBody, tbClearCall, h1 hs]
    · simpa [tbStep, hid] using ⟨h1, h2⟩
  | fireNoOutput id =>
    by_cases hid : s.noOutputTimeoutId = some id
    · have hs : s.everStopped = false := by
        by_contra hc
        have hc' : s.everStopped = true := by revert hc; cases s.everStopped <;> simp
        exact absurd hid (by simp [(h2 hc').2.1])
      refine ⟨?_, ?_⟩
      · intro hc
        simp [tbStep, hid, tbFireNoOutputBody, tbClearCall] at hc
      · intro _
        simp [tbStep, hid, tbFireNoOutputBody, tbClearCall, h1 hs]
    · simpa [tbStep, hid] using ⟨h1, h2⟩

lemma tbInv_run (tr : List TbEvent) :
    ∀ (s : TbState), noRearmFrom s tr = true → tbInv s → tbInv (tr.foldl tbStep s) := by
  induction tr with
  | nil => intro s _ h; exact h
  | cons e es ih =>
    intro s hre h
    simp only [noRearmFrom, Bool.and_eq_true, Bool.not_eq_true'] at hre
    refine ih (tbStep s e) hre.2 (tbInv_step s e ?_ h)
    intro ⟨ha, hb⟩
    rw [ha, hb] at hre
    simp at hre

/-- C4, amended: provided none of `setHardTimeout`, `setNoOutputTimeout`
and `notifyOutput` is invoked after a callback has fired or `clear()` has
been called, at most one of the two armed callbacks fires over the
controller's lifetime, and once stopped the controller is never re-armed
(both timer handles stay cleared).  Without that proviso a `notifyOutput()`
after firing or clearing re-arms the no-output timer and a second callback
can fire. -/
theorem C4_amended (tr : List TbEvent) (h : noRearmFrom tbInit tr = true) :
    (tbRun tr).fires.length ≤ 1 ∧
      ((tbRun tr).everStopped = true →
        (tbRun tr).hardTimeoutId = none ∧ (tbRun tr).noOutputTimeoutId = none) := by
  have hinv : tbInv (tbRun tr) :=
    tbInv_run tr tbInit h ⟨fun _ => rfl, by intro hc; simp [tbInit] at hc⟩
  obtain ⟨h1, h2⟩ := hinv
  constructor
  · cases hs : (tbRun tr).everStopped with
    | false => simp [h1 hs]
    | true => exact (h2 hs).2.2
  · intro hs
    exact ⟨(h2 hs).1, (h2 hs).2.1⟩

/-- C4, witness for the amended claim: in the orderly lifetime
`setHardTimeout; setNoOutputTimeout; notifyOutput; hard fire` exactly one
callback fires and the controller ends disarmed. -/
theorem C4_amended_witness :
    (tbRun [TbEvent.setHard 1000, TbEvent.setNoOutput 300, TbEvent.notifyOutput,
        TbEvent.fireHard 0]).fires.length ≤ 1 ∧
      ((tbRun [TbEvent.setHard 1000, TbEvent.setNoOutput 300, TbEvent.notifyOutput,
          TbEvent.fireHard 0]).everStopped = true →
        (tbRun [TbEvent.setHard 1000, TbEvent.setNoOutput 300, TbEvent.notifyOutput,
            TbEvent.fireHard 0]).hardTimeoutId = none ∧
          (tbRun [TbEvent.setHard 1000, TbEvent.setNoOutput 300, TbEvent.notifyOutput,
              TbEvent.fireHard 0]).noOutputTimeoutId = none) :=
  C4_amended [TbEvent.setHard 1000, TbEvent.setNoOutput 300, TbEvent.notifyOutput,
    TbEvent.fireHard 0] (by decide)

/-- The five representable statuses (`ProcessStatus`,
src/executor/process-executor.ts, line 36). -/
def allowedStatuses : List (List Char) :=
  ["pass".toList, "fail".toList, "timeout".toList, "no_output".toList,
    "error".toList]

/-- The resolution-determined part of a `ProcessResult` (its `logs` field is
a reference to the executor's live `logs` array and is modelled
separately). -/
structure ResultCore where
  status : List Char
  exitCode : Option Int
  durationMs : Int
  timedOut : Bool
  noOutput : Bool
deriving DecidableEq, Repr

/-- The source stream of a log entry. -/
inductive JsStream
  | stdout
  | stderr
deriving DecidableEq, Repr

/-- A log entry (`LogEntry`, src/executor/process-executor.ts,
lines 24-31). -/
structure LogEntry where
  timestamp : Int
  stream : JsStream
  data : List Char
deriving DecidableEq, Repr

/-- State of one `ProcessExecutor.execute` invocation after the synchronous
part of the `try` block (spawn succeeded, stdin closed, both timers armed,
stream and process listeners attached).  `logs` is the live array that the
stream listeners push into and that a resolved `ProcessResult` references;
`core` is the resolution-determined part of the result (`none` while
unresolved); `resolved` is the latch read and set by `finalize`;
`resolveCount` counts `resolve` calls and `treeKills` counts `treeKill`
invocations (history fields). -/
structure ExecState where
  startTime : Int
  tb : TbState
  logs : List LogEntry
  resolved : Bool
  core : Option ResultCore
  resolveCount : Nat
  treeKills : Nat
deriving DecidableEq, Repr

/-- Events that can reach one invocation after its synchronous setup: a
stream `data` event, the process `close` event (with the exit code, `null`
when killed by a signal), the process `error` event (spawn failure surfaced
asynchronously), and the two timer expirations (carrying the token of the
`setTimeout` closure that runs; without effect if that timer was
cancelled).  Each event carries the value `Date.now()` would return while
it is handled.  The model quantifies over all event interleavings. -/
inductive ExecEvent
  | data (t : Int) (stream : JsStream) (payload : List Char)
  | close (t : Int) (code : Option Int)
  | err (t : Int)
  | fireHard (t : Int) (id : Nat)
  | fireNoOutput (t : Int) (id : Nat)
deriving DecidableEq, Repr

/-- `finalize(result)` (src/executor/process-executor.ts, lines 116-121):
return early when already resolved, otherwise set the latch, clear the
timebox, and resolve with the result. -/
def finalize (s : ExecState) (r : ResultCore) : ExecState :=
  if s.resolved then s
  else
    { s with
      resolved := true
      tb := tbClearCall s.tb
      core := some r
      resolveCount := s.resolveCount + 1 }

/-- `killProcess(timeoutType)` (lines 126-148): `treeKill` the subtree
(best effort; an error is only logged) and finalize with the corresponding
timeout result, `exitCode` null. -/
def killProcess (s : ExecState) (t : Int) (tt : TimeoutType) : ExecState :=
  let s1 := { s with treeKills := s.treeKills + 1 }
  let isNoOutput := tt = TimeoutType.no_output
  finalize s1
    { status := if isNoOutput then "no_output".toList else "timeout".toList
      exitCode := none
      durationMs := t - s.startTime
      timedOut := ¬ isNoOutput
      noOutput := isNoOutput }

/-- One step of the invocation's event loop. -/
def execStep (s : ExecState) (e : ExecEvent) : ExecState :=
  match e with
  | ExecEvent.data t strm payload =>
    let s1 := { s with logs := s.logs ++ [LogEntry.mk t strm payload] }
    { s1 with tb := tbNotifyOutput s1.tb }
  | ExecEvent.close t code =>
    finalize s
      { status := if code = some 0 then "pass".toList else "fail".toList
        exitCode := code
        durationMs := t - s.startTime
        timedOut := false
        noOutput := false }
  | ExecEvent.err t =>
    finalize s
      { status := "error".toList
        exitCode := none
        durationMs := t - s.startTime
        timedOut := false
        noOutput := false }
  | ExecEvent.fireHard t id =>
    if s.tb.hardTimeoutId = some id then
      killProcess { s with tb := tbFireHardBody s.tb } t TimeoutType.hard
    else s
  | ExecEvent.fireNoOutput t id =>
    if s.tb.noOutputTimeoutId = some id then
      killProcess { s with tb := tbFireNoOutputBody s.tb } t TimeoutType.no_output
    else s

/-- The invocation state right after the synchronous setup (lines 150-166):
fresh controller, `setHardTimeout` then `setNoOutputTimeout` armed, no
output yet, unresolved. -/
def execInit (startTime : Int) (hardMs noMs : Nat) : ExecState :=
  { startTime := startTime
    tb := tbSetNoOutput (tbSetHard tbInit hardMs) noMs
    logs := []
    resolved := false
    core := none
    resolveCount := 0
    treeKills := 0 }

/-- An invocation whose spawn succeeded syntactically, driven by a trace of
events. -/
def execRun (startTime : Int) (hardMs noMs : Nat) (events : List ExecEvent) :
    ExecState :=
  events.foldl execStep (execInit startTime hardMs noMs)

/-- The `catch` branch of `execute` (lines 225-237): `spawn` threw
synchronously, so the timers were never armed and the invocation resolves
immediately with status `error` and `exitCode` null. -/
def execSpawnThrow (startTime t : Int) : ExecState :=
  finalize
    { startTime := startTime
      tb := tbInit
      logs := []
      resolved := false
      core := none
      resolveCount := 0
      treeKills := 0 }
    { status := "error".toList
      exitCode := none
      durationMs := t - startTime
      timedOut := false
      noOutput := false }

example :
    (execRun 0 500 300 [ExecEvent.close 42 (some 0)]).core =
      some ⟨"pass".toList, some 0, 42, false, false⟩ := by decide

example :
    (execRun 0 500 300 [ExecEvent.close 42 (some 7)]).core =
      some ⟨"fail".toList, some 7, 42, false, false⟩ := by decide

example :
    (execRun 0 500 300 [ExecEvent.fireHard 500 0]).core =
      some ⟨"timeout".toList, none, 500, true, false⟩ := by decide

example :
    (execRun 0 500 300 [ExecEvent.fireNoOutput 300 1]).core =
      some ⟨"no_output".toList, none, 300, false, true⟩ := by decide

example :
    (execRun 0 500 300 [ExecEvent.fireHard 500 0,
      ExecEvent.close 510 (some 0)]).core =
      some ⟨"timeout".toList, none, 500, true, false⟩ := by decide

/-- Once the latch is set, no later event changes the latch, the result
core, or the number of `resolve` calls. -/
lemma execStep_resolved (s : ExecState) (e : ExecEvent) (h : s.resolved = true) :
    (execStep s e).resolved = true ∧ (execStep s e).core = s.core ∧
      (execStep s e).resolveCount = s.resolveCount := by
  cases e with
  | data t strm payload => simp [execStep, h]
  | close t code => simp [execStep, finalize, h]
  | err t => simp [execStep, finalize, h]
  | fireHard t id =>
    by_cases hid : s.tb.hardTimeoutId = some id <;>
      simp [execStep, hid, killProcess, finalize, h]
  | fireNoOutput t id =>
    by_cases hid : s.tb.noOutputTimeoutId = some id <;>
      simp [execStep, hid, killProcess, finalize, h]

/-- Persistence of the resolution over any remaining event trace. -/
lemma execFold_resolved (post : List ExecEvent) :
    ∀ (s : ExecState), s.resolved = true →
      (post.foldl execStep s).resolved = true ∧
        (post.foldl execStep s).core = s.core ∧
        (post.foldl execStep s).resolveCount = s.resolveCount := by
  induction post with
  | nil => intro s h; exact ⟨h, rfl, rfl⟩
  | cons e es ih =>
    intro s h
    obtain ⟨h1, h2, h3⟩ := execStep_resolved s e h
    obtain ⟨g1, g2, g3⟩ := ih (execStep s e) h1
    simp only [List.foldl_cons]
    exact ⟨g1, by rw [g2, h2], by rw [g3, h3]⟩

/-- An event on an unresolved state either leaves the invocation unresolved
with the same resolve count, or resolves it, incrementing the count to
exactly one more. -/
lemma execStep_unresolved (s : ExecState) (e : ExecEvent) (h : s.resolved = false) :
    ((execStep s e).resolved = false ∧
        (execStep s e).resolveCount = s.resolveCount) ∨
      ((execStep s e).resolved = true ∧
        (execStep s e).resolveCount = s.resolveCount + 1) := by
  cases e with
  | data t strm payload => exact Or.inl (by simp [execStep, h])
  | close t code => exact Or.inr (by simp [execStep, finalize, h])
  | err t => exact Or.inr (by simp [execStep, finalize, h])
  | fireHard t id =>
    by_cases hid : s.tb.hardTimeoutId = some id
    · exact Or.inr (by simp [execStep, hid, killProcess, finalize, h])
    · exact Or.inl (by simp [execStep, hid, h])
  | fireNoOutput t id =>
    by_cases hid : s.tb.noOutputTimeoutId = some id
    · exact Or.inr (by simp [execStep, hid, killProcess, finalize, h])
    · exact Or.inl (by simp [execStep, hid, h])

/-- The resolve count stays at most one and agrees with the latch. -/
lemma execFold_count (events : List ExecEvent) :
    ∀ (s : ExecState), s.resolveCount ≤ 1 →
      (s.resolved = true ↔ s.resolveCount = 1) →
      (events.foldl execStep s).resolveCount ≤ 1 ∧
        ((events.foldl execStep s).resolved = true ↔
          (events.foldl execStep s).resolveCount = 1) := by
  induction events with
  | nil => intro s h1 h2; exact ⟨h1, h2⟩
  | cons e es ih =>
    intro s h1 h2
    simp only [List.foldl_cons]
    cases hres : s.resolved with
    | true =>
      obtain ⟨g1, _, g3⟩ := execStep_resolved s e hres
      refine ih (execStep s e) (by omega) ?_
      rw [g1, g3]
      simpa [hres] using h2
    | false =>
      have hc0 : s.resolveCount = 0 := by
        rcases Nat.lt_or_ge s.resolveCount 1 with hlt | hge
        · omega
        · exact absurd (h2.mpr (by omega)) (by simp [hres])
      rcases execStep_unresolved s e hres with ⟨g1, g2⟩ | ⟨g1, g2⟩
      · exact ih (execStep s e) (by omega) (by rw [g1, g2]; simp [hc0])
      · exact ih (execStep s e) (by omega) (by rw [g1, g2]; simp [hc0])

/-- Splitting an invocation's trace. -/
lemma execRun_append (st : Int) (hm nm : Nat) (pre post : List ExecEvent) :
    execRun st hm nm (pre ++ post) = post.foldl execStep (execRun st hm nm pre) := by
  simp [execRun, List.foldl_append]

lemma finalize_startTime (s : ExecState) (r : ResultCore) :
    (finalize s r).startTime = s.startTime := by
  simp only [finalize]
  split_ifs <;> rfl

lemma execStep_startTime (s : ExecState) (e : ExecEvent) :
    (execStep s e).startTime = s.startTime := by
  cases e with
  | data t strm payload => rfl
  | close t code => exact finalize_startTime _ _
  | err t => exact finalize_startTime _ _
  | fireHard t id =>
    by_cases hid : s.tb.hardTimeoutId = some id <;>
      simp [execStep, hid, killProcess, finalize_startTime]
  | fireNoOutput t id =>
    by_cases hid : s.tb.noOutputTimeoutId = some id <;>
      simp [execStep, hid, killProcess, finalize_startTime]

/-- `startTime` is fixed at invocation entry. -/
lemma execRun_startTime (st : Int) (hm nm : Nat) (events : List ExecEvent) :
    (execRun st hm nm events).startTime = st := by
  suffices h : ∀ (s : ExecState), (events.foldl execStep s).startTime = s.startTime by
    exact (h (execInit st hm nm)).trans rfl
  induction events with
  | nil => intro s; rfl
  | cons e es ih =>
    intro s
    simp only [List.foldl_cons]
    rw [ih (execStep s e), execStep_startTime]

/-- C1: per invocation, the `resolved` latch makes resolution exactly-once:
the number of `resolve` calls never exceeds one and is exactly one when the
latch is set, and once some prefix of the event trace has resolved the
invocation, the returned result core (status, exitCode, durationMs,
timedOut, noOutput) is the one produced by that prefix's first resolving
trigger — no later process-exit, timer-fire, or error event changes it. -/
theorem C1 (st : Int) (hm nm : Nat) (events : List ExecEvent) :
    (execRun st hm nm events).resolveCount ≤ 1 ∧
      ((execRun st hm nm events).resolved = true ↔
        (execRun st hm nm events).resolveCount = 1) ∧
      ∀ pre post, events = pre ++ post →
        (execRun st hm nm pre).resolved = true →
        (execRun st hm nm events).core = (execRun st hm nm pre).core ∧
          (execRun st hm nm events).resolved = true := by
  have hinit1 : (execInit st hm nm).resolveCount ≤ 1 := by
    simp [execInit]
  have hinit2 : (execInit st hm nm).resolved = true ↔
      (execInit st hm nm).resolveCount = 1 := by
    simp [execInit]
  obtain ⟨h1, h2⟩ := execFold_count events (execInit st hm nm) hinit1 hinit2
  refine ⟨h1, h2, ?_⟩
  intro pre post hsplit hres
  subst hsplit
  rw [execRun_append]
  obtain ⟨g1, g2, _⟩ := execFold_resolved post (execRun st hm nm pre) hres
  exact ⟨g2, g1⟩

/-- C1, witness: after a first `close` resolves the invocation, a second
`close` with a different exit code leaves the result core unchanged. -/
theorem C1_witness :
    (execRun 0 500 300 [ExecEvent.close 5 (some 0), ExecEvent.close 9 (some 1)]).core =
        (execRun 0 500 300 [ExecEvent.close 5 (some 0)]).core ∧
      (execRun 0 500 300 [ExecEvent.close 5 (some 0),
        ExecEvent.close 9 (some 1)]).resolved = true :=
  (C1 0 500 300 [ExecEvent.close 5 (some 0), ExecEvent.close 9 (some 1)]).2.2
    [ExecEvent.close 5 (some 0)] [ExecEvent.close 9 (some 1)] rfl (by decide)

/-- C2: when the process exits naturally before any timeout has resolved
the invocation, exit code 0 yields status `pass` and nonzero exit code `c`
yields status `fail` with `exitCode` exactly `c`; when a hard-timeout or
inactivity-timeout fire wins the resolution, `exitCode` is null (with
status `timeout` resp. `no_output`). -/
theorem C2 :
    (∀ (st : Int) (hm nm : Nat) (pre post : List ExecEvent) (t : Int),
      (execRun st hm nm pre).resolved = false →
      (execRun st hm nm (pre ++ ExecEvent.close t (some 0) :: post)).core =
        some ⟨"pass".toList, some 0, t - st, false, false⟩) ∧
      (∀ (st : Int) (hm nm : Nat) (pre post : List ExecEvent) (t : Int) (c : Int),
        c ≠ 0 →
        (execRun st hm nm pre).resolved = false →
        (execRun st hm nm (pre ++ ExecEvent.close t (some c) :: post)).core =
          some ⟨"fail".toList, some c, t - st, false, false⟩) ∧
      (∀ (st : Int) (hm nm : Nat) (pre post : List ExecEvent) (t : Int) (id : Nat),
        (execRun st hm nm pre).resolved = false →
        (execRun st hm nm pre).tb.hardTimeoutId = some id →
        (execRun st hm nm (pre ++ ExecEvent.fireHard t id :: post)).core =
          some ⟨"timeout".toList, none, t - st, true, false⟩) ∧
      (∀ (st : Int) (hm nm : Nat) (pre post : List ExecEvent) (t : Int) (id : Nat),
        (execRun st hm nm pre).resolved = false →
        (execRun st hm nm pre).tb.noOutputTimeoutId = some id →
        (execRun st hm nm (pre ++ ExecEvent.fireNoOutput t id :: post)).core =
          some ⟨"no_output".toList, none, t - st, false, true⟩) := by
  refine ⟨?_, ?_, ?_, ?_⟩
  · intro st hm nm pre post t h
    rw [show ExecEvent.close t (some 0) :: post =
      [ExecEvent.close t (some 0)] ++ post from rfl, ← List.append_assoc,
      execRun_append, execRun_append]
    have hres1 : ([ExecEvent.close t (some 0)].foldl execStep
        (execRun st hm nm pre)).resolved = true := by
      simp [execStep, finalize, h]
    obtain ⟨_, g2, _⟩ := execFold_resolved post _ hres1
    rw [g2]
    simp [execStep, finalize, h, execRun_startTime]
  · intro st hm nm pre post t c hc h
    rw [show ExecEvent.close t (some c) :: post =
      [ExecEvent.close t (some c)] ++ post from rfl, ← List.append_assoc,
      execRun_append, execRun_append]
    have hres1 : ([ExecEvent.close t (some c)].foldl execStep
        (execRun st hm nm pre)).resolved = true := by
      simp [execStep, finalize, h]
    obtain ⟨_, g2, _⟩ := execFold_resolved post _ hres1
    rw [g2]
    simp [execStep, finalize, h, hc, execRun_startTime]
  · intro st hm nm pre post t id h hid
    rw [show ExecEvent.fireHard t id :: post =
      [ExecEvent.fireHard t id] ++ post from rfl, ← List.append_assoc,
      execRun_append, execRun_append]
    have hres1 : ([ExecEvent.fireHard t id].foldl execStep
        (execRun st hm nm pre)).resolved = true := by
      simp [execStep, hid, killProcess, finalize, h]
    obtain ⟨_, g2, _⟩ := execFold_resolved post _ hres1
    rw [g2]
    simp [execStep, hid, killProcess, finalize, h, execRun_startTime]
  · intro st hm nm pre post t id h hid
    rw [show ExecEvent.fireNoOutput t id :: post =
      [ExecEvent.fireNoOutput t id] ++ post from rfl, ← List.append_assoc,
      execRun_append, execRun_append]
    have hres1 : ([ExecEvent.fireNoOutput t id].foldl execStep
        (execRun st hm nm pre)).resolved = true := by
      simp [execStep, hid, killProcess, finalize, h]
    obtain ⟨_, g2, _⟩ := execFold_resolved post _ hres1
    rw [g2]
    simp [execStep, hid, killProcess, finalize, h, execRun_startTime]

/-- C2, witness at concrete traces: natural exits with codes 0 and 7, and
the two timer fires, each as the first resolving trigger. -/
theorem C2_witness :
    (execRun 0 500 300 [ExecEvent.close 42 (some 0)]).core =
        some ⟨"pass".toList, some 0, 42, false, false⟩ ∧
      (execRun 0 500 300 [ExecEvent.close 42 (some 7)]).core =
        some ⟨"fail".toList, some 7, 42, false, false⟩ ∧
      (execRun 0 500 300 [ExecEvent.fireHard 500 0]).core =
        some ⟨"timeout".toList, none, 500, true, false⟩ ∧
      (execRun 0 500 300 [ExecEvent.fireNoOutput 300 1]).core =
        some ⟨"no_output".toList, none, 300, false, true⟩ := by
  refine ⟨?_, ?_, ?_, ?_⟩
  · have h := C2.1 0 500 300 [] [] 42 (by decide)
    simpa using h
  · have h := C2.2.1 0 500 300 [] [] 42 7 (by decide) (by decide)
    simpa using h
  · have h := C2.2.2.1 0 500 300 [] [] 500 0 (by decide) (by decide)
    simpa using h
  · have h := C2.2.2.2 0 500 300 [] [] 300 1 (by decide) (by decide)
    simpa using h

/-- C5, counterexample: the claim that after resolution no further entry is
appended to the result's log sequence (late stream data being discarded) is
false.  The stream listeners push into the shared `logs` array without
consulting the `resolved` latch, and the resolved result references that
same array: after an inactivity-timeout resolution with empty logs, a late
`data` event appends an entry. -/
theorem C5_counterexample :
    (execRun 0 500 300 [ExecEvent.fireNoOutput 300 1]).resolved = true ∧
      (execRun 0 500 300 [ExecEvent.fireNoOutput 300 1]).logs = [] ∧
      (execRun 0 500 300 [ExecEvent.fireNoOutput 300 1,
          ExecEvent.data 310 JsStream.stdout ['x']]).logs =
        [LogEntry.mk 310 JsStream.stdout ['x']] ∧
      (execRun 0 500 300 [ExecEvent.fireNoOutput 300 1,
          ExecEvent.data 310 JsStream.stdout ['x']]).core =
        (execRun 0 500 300 [ExecEvent.fireNoOutput 300 1]).core := by
  decide

/-- C5, amended: a stream data event arriving after resolution is appended
(not discarded) to the live `logs` array, which the already-returned result
references; the resolution-determined fields of the result (status,
exitCode, durationMs) are unchanged by any events after resolution. -/
theorem C5_amended (st : Int) (hm nm : Nat) (pre : List ExecEvent) (t : Int)
    (strm : JsStream) (payload : List Char) (post : List ExecEvent)
    (h : (execRun st hm nm pre).resolved = true) :
    (execRun st hm nm (pre ++ [ExecEvent.data t strm payload])).logs =
        (execRun st hm nm pre).logs ++ [LogEntry.mk t strm payload] ∧
      (execRun st hm nm (pre ++ ExecEvent.data t strm payload :: post)).core =
        (execRun st hm nm pre).core := by
  constructor
  · rw [execRun_append]
    simp [execStep]
  · rw [show ExecEvent.data t strm payload :: post =
      [ExecEvent.data t strm payload] ++ post from rfl, ← List.append_assoc,
      execRun_append, execRun_append]
    have hres1 : ([ExecEvent.data t strm payload].foldl execStep
        (execRun st hm nm pre)).resolved = true := by
      simp [execStep, h]
    obtain ⟨_, g2, _⟩ := execFold_resolved post _ hres1
    rw [g2]
    simp [execStep]

/-- C5, witness for the amended claim: the concrete late-data trace. -/
theorem C5_amended_witness :
    (execRun 0 500 300 ([ExecEvent.fireNoOutput 300 1] ++
        [ExecEvent.data 310 JsStream.stdout ['x']])).logs =
        (execRun 0 500 300 [ExecEvent.fireNoOutput 300 1]).logs ++
          [LogEntry.mk 310 JsStream.stdout ['x']] ∧
      (execRun 0 500 300 ([ExecEvent.fireNoOutput 300 1] ++
          ExecEvent.data 310 JsStream.stdout ['x'] :: [])).core =
        (execRun 0 500 300 [ExecEvent.fireNoOutput 300 1]).core :=
  C5_amended 0 500 300 [ExecEvent.fireNoOutput 300 1] 310 JsStream.stdout ['x']
    [] (by decide)

/-- The invariant giving C6: while unresolved the hard timer is armed; the
latch coincides with the presence of a result core; and every produced core
carries one of the five representable statuses. -/
def execInv (s : ExecState) : Prop :=
  (s.resolved = false → s.tb.hardTimeoutId.isSome = true) ∧
    (s.resolved = true ↔ s.core.isSome = true) ∧
    ∀ c, s.core = some c → c.status ∈ allowedStatuses

lemma tbNotifyOutput_hardId (tb : TbState) :
    (tbNotifyOutput tb).hardTimeoutId = tb.hardTimeoutId := by
  simp only [tbNotifyOutput, tbResetNoOutput]
  split_ifs <;> rfl

lemma execInv_step (s : ExecState) (e : ExecEvent) (h : execInv s) :
    execInv (execStep s e) := by
  obtain ⟨h1, h2, h3⟩ := h
  cases hres : s.resolved with
  | true =>
    obtain ⟨g1, g2, _⟩ := execStep_resolved s e hres
    refine ⟨?_, ?_, ?_⟩
    · intro hf
      rw [g1] at hf
      exact absurd hf (by simp)
    · rw [g1, g2]
      simpa [hres] using h2
    · intro c hc
      rw [g2] at hc
      exact h3 c hc
  | false =>
    cases e with
    | data t strm payload =>
      refine ⟨?_, by simpa [execStep] using h2, by simpa [execStep] using h3⟩
      intro hf
      simp only [execStep] at hf ⊢
      rw [tbNotifyOutput_hardId]
      exact h1 (by simpa using hf)
    | close t code =>
      refine ⟨by simp [execStep, finalize, hres],
        by simp [execStep, finalize, hres], ?_⟩
      intro c hc
      have hXcore : (execStep s (ExecEvent.close t code)).core =
          some { status := if code = some 0 then "pass".toList else "fail".toList
                 exitCode := code
                 durationMs := t - s.startTime
                 timedOut := false
                 noOutput := false } := by
        simp [execStep, finalize, hres]
      rw [hXcore] at hc
      obtain rfl := Option.some.inj hc
      by_cases h0 : code = some 0 <;> simp [h0, allowedStatuses]
    | err t =>
      refine ⟨by simp [execStep, finalize, hres],
        by simp [execStep, finalize, hres], ?_⟩
      intro c hc
      have hXcore : (execStep s (ExecEvent.err t)).core =
          some { status := "error".toList
                 exitCode := none
                 durationMs := t - s.startTime
                 timedOut := false
                 noOutput := false } := by
        simp [execStep, finalize, hres]
      rw [hXcore] at hc
      obtain rfl := Option.some.inj hc
      simp [allowedStatuses]
    | fireHard t id =>
      by_cases hid : s.tb.hardTimeoutId = some id
      · refine ⟨by simp [execStep, hid, killProcess, finalize, hres],
          by simp [execStep, hid, killProcess, finalize, hres], ?_⟩
        intro c hc
        have hXcore : (execStep s (ExecEvent.fireHard t id)).core =
            some { status := "timeout".toList
                   exitCode := none
                   durationMs := t - s.startTime
                   timedOut := true
                   noOutput := false } := by
          simp [execStep, hid, killProcess, finalize, hres]
        rw [hXcore] at hc
        obtain rfl := Option.some.inj hc
        simp [allowedStatuses]
      · simpa [execStep, hid] using ⟨h1, h2, h3⟩
    | fireNoOutput t id =>
      by_cases hid : s.tb.noOutputTimeoutId = some id
      · refine ⟨by simp [execStep, hid, killProcess, finalize, hres],
          by simp [execStep, hid, killProcess, finalize, hres], ?_⟩
        intro c hc
        have hXcore : (execStep s (ExecEvent.fireNoOutput t id)).core =
            some { status := "no_output".toList
                   exitCode := none
                   durationMs := t - s.startTime
                   timedOut := false
                   noOutput := true } := by
          simp [execStep, hid, killProcess, finalize, hres]
        rw [hXcore] at hc
        obtain rfl := Option.some.inj hc
        simp [allowedStatuses]
      · simpa [execStep, hid] using ⟨h1, h2, h3⟩

lemma execInv_run (st : Int) (hm nm : Nat) (events : List ExecEvent) :
    execInv (execRun st hm nm events) := by
  have hinit : execInv (execInit st hm nm) := by
    refine ⟨?_, by simp [execInit], by simp [execInit]⟩
    intro _
    simp [execInit, tbSetNoOutput, tbSetHard, tbResetNoOutput, tbInit]
  suffices hstep : ∀ (s : ExecState), execInv s →
      execInv (events.foldl execStep s) from hstep _ hinit
  induction events with
  | nil => intro s h; exact h
  | cons e es ih =>
    intro s h
    exact ih (execStep s e) (execInv_step s e h)

/-- C6: every failure mode is mapped to a representable status and the
caller always receives a result object.  A synchronous spawn failure
resolves immediately with status `error`; for a spawned process, the hard
timer remains armed until resolution (so in real time a resolving trigger
must occur), resolution happens exactly when a result core exists, every
produced result's status lies in \x7bpass, fail, timeout, no_output,
error\x7d, and a process-exit event always resolves — in particular the
step function is total: no event makes `execute` throw. -/
theorem C6 :
    (∀ st t : Int, (execSpawnThrow st t).resolved = true ∧
        (execSpawnThrow st t).core =
          some ⟨"error".toList, none, t - st, false, false⟩) ∧
      (∀ (st : Int) (hm nm : Nat) (events : List ExecEvent),
        ((execRun st hm nm events).resolved = false →
          (execRun st hm nm events).tb.hardTimeoutId.isSome = true) ∧
          ((execRun st hm nm events).resolved = true ↔
            (execRun st hm nm events).core.isSome = true) ∧
          ∀ c, (execRun st hm nm events).core = some c →
            c.status ∈ allowedStatuses) ∧
      (∀ (st : Int) (hm nm : Nat) (pre post : List ExecEvent) (t : Int)
          (code : Option Int),
        (execRun st hm nm (pre ++ ExecEvent.close t code :: post)).resolved =
          true) := by
  refine ⟨?_, ?_, ?_⟩
  · intro st t
    exact ⟨by simp [execSpawnThrow, finalize], by simp [execSpawnThrow, finalize]⟩
  · intro st hm nm events
    exact execInv_run st hm nm events
  · intro st hm nm pre post t code
    rw [show ExecEvent.close t code :: post =
      [ExecEvent.close t code] ++ post from rfl, ← List.append_assoc,
      execRun_append, execRun_append]
    have hres1 : ([ExecEvent.close t code].foldl execStep
        (execRun st hm nm pre)).resolved = true := by
      cases hres : (execRun st hm nm pre).resolved with
      | true =>
        have hg := (execStep_resolved (execRun st hm nm pre)
          (ExecEvent.close t code) hres).1
        simpa using hg
      | false => simp [execStep, finalize, hres]
    exact (execFold_resolved post _ hres1).1

/-- C6, witness: a spawn-throw resolves with status `error`; an unresolved
run keeps the hard timer armed; a close event resolves. -/
theorem C6_witness :
    ((execSpawnThrow 0 3).resolved = true ∧
        (execSpawnThrow 0 3).core =
          some ⟨"error".toList, none, 3, false, false⟩) ∧
      (execRun 0 500 300 [ExecEvent.data 10 JsStream.stdout ['x']]).tb.hardTimeoutId.isSome
          = true ∧
      (execRun 0 500 300 [ExecEvent.close 5 (some 0)]).resolved = true :=
  ⟨C6.1 0 3,
   (C6.2.1 0 500 300 [ExecEvent.data 10 JsStream.stdout ['x']]).1 (by decide),
   C6.2.2 0 500 300 [] [] 5 (some 0)⟩

/-- C9, counterexample: the claim that on every spawn failure the hard and
inactivity timers are never armed during that invocation is false.  A spawn
failure of a command that cannot start is delivered through the process
`error` event, which Node emits asynchronously — after the `try` block has
already armed both timers (lines 165-166 run before any event handler):
the invocation resolves with status `error` and `exitCode` null, but both
timers were armed during it. -/
theorem C9_counterexample :
    (execInit 0 500 300).tb.hardTimeoutId.isSome = true ∧
      (execInit 0 500 300).tb.noOutputTimeoutId.isSome = true ∧
      (execRun 0 500 300 [ExecEvent.err 4]).core =
        some ⟨"error".toList, none, 4, false, false⟩ := by
  decide

/-- C9, amended: every spawn failure resolves immediately (exactly one
`resolve`, no retries) with status `error` and `exitCode` null.  When
`spawn` throws synchronously (the `catch` branch), the timers are never
armed: the controller ends with no timer handle, no configured inactivity
interval, and no fired callback.  When the spawn failure surfaces through
the process `error` event, both timers have already been armed by the
synchronous setup, and they are cleared when the error event resolves the
invocation. -/
theorem C9_amended :
    (∀ st t : Int,
      (execSpawnThrow st t).core =
          some ⟨"error".toList, none, t - st, false, false⟩ ∧
        (execSpawnThrow st t).resolveCount = 1 ∧
        (execSpawnThrow st t).tb.hardTimeoutId = none ∧
        (execSpawnThrow st t).tb.noOutputTimeoutId = none ∧
        (execSpawnThrow st t).tb.noOutputTimeoutMs = none ∧
        (execSpawnThrow st t).tb.fires = []) ∧
      (∀ (st : Int) (hm nm : Nat) (pre post : List ExecEvent) (t : Int),
        (execRun st hm nm pre).resolved = false →
        (execRun st hm nm (pre ++ ExecEvent.err t :: post)).core =
            some ⟨"error".toList, none, t - st, false, false⟩ ∧
          (execRun st hm nm (pre ++ [ExecEvent.err t])).resolveCount =
            (execRun st hm nm pre).resolveCount + 1 ∧
          (execRun st hm nm (pre ++ [ExecEvent.err t])).tb.hardTimeoutId = none ∧
          (execRun st hm nm (pre ++ [ExecEvent.err t])).tb.noOutputTimeoutId =
            none ∧
          (execInit st hm nm).tb.hardTimeoutId.isSome = true ∧
          (execInit st hm nm).tb.noOutputTimeoutId.isSome = true) := by
  constructor
  · intro st t
    refine ⟨?_, ?_, ?_, ?_, ?_, ?_⟩ <;>
      simp [execSpawnThrow, finalize, tbInit, tbClearCall]
  · intro st hm nm pre post t h
    refine ⟨?_, ?_, ?_, ?_, ?_, ?_⟩
    · rw [show ExecEvent.err t :: post = [ExecEvent.err t] ++ post from rfl,
        ← List.append_assoc, execRun_append, execRun_append]
      have hres1 : ([ExecEvent.err t].foldl execStep
          (execRun st hm nm pre)).resolved = true := by
        simp [execStep, finalize, h]
      obtain ⟨_, g2, _⟩ := execFold_resolved post _ hres1
      rw [g2]
      simp [execStep, finalize, h, execRun_startTime]
    · rw [execRun_append]
      simp [execStep, finalize, h]
    · rw [execRun_append]
      simp [execStep, finalize, h, tbClearCall]
    · rw [execRun_append]
      simp [execStep, finalize, h, tbClearCall]
    · simp [execInit, tbSetNoOutput, tbSetHard, tbResetNoOutput, tbInit]
    · simp [execInit, tbSetNoOutput, tbSetHard, tbResetNoOutput, tbInit]

/-- C9, witness for the amended claim: a synchronous spawn throw at a
concrete time, and the error-event path after an unresolved prefix. -/
theorem C9_amended_witness :
    ((execSpawnThrow 0 3).core = some ⟨"error".toList, none, 3, false, false⟩ ∧
        (execSpawnThrow 0 3).resolveCount = 1 ∧
        (execSpawnThrow 0 3).tb.hardTimeoutId = none ∧
        (execSpawnThrow 0 3).tb.noOutputTimeoutId = none ∧
        (execSpawnThrow 0 3).tb.noOutputTimeoutMs = none ∧
        (execSpawnThrow 0 3).tb.fires = []) ∧
      (execRun 0 500 300 ([] ++ ExecEvent.err 4 :: [])).core =
          some ⟨"error".toList, none, 4, false, false⟩ :=
  ⟨C9_amended.1 0 3, (C9_amended.2 0 500 300 [] [] 4 (by decide)).1⟩

end Timebox
